import Mathlib

/-!
Verification of the chunk-size optimizer, the TypeScript structural parser and
the vector-store metadata serializer of the `iwsdk-rag-mcp` ingestion pipeline.

The Python sources are embedded shallowly:

* `TypeScriptChunk` (dataclass in `ingestion/parsers/typescript_parser.py`)
  becomes the structure `Chunk`; Python `set` fields become `Finset String`,
  line numbers become `Int` (Python ints, so gaps may be negative).
* Re-reading a source file (`open(path).readlines()`) is modelled by a map
  `fs : String → Option (List String)`; `none` models any raised exception
  (including `FileNotFoundError`), `some lines` a successful read where each
  list element is one line of the file.
* The `while` loop of `ASTChunker._optimize_file_chunks` is modelled by a
  fuel-indexed structural recursion (`opt_loop`); the fuel equals the number
  of chunks, which bounds the loop because the scan index grows by one on
  every iteration.  Alongside each emitted chunk the model records the set of
  input indices the chunk accounts for ("provenance"), which is precisely the
  instrumentation the coverage property of the spec talks about; projecting
  the provenance away yields the list the Python code returns.
* Python set iteration order is unspecified; where the code serializes a set
  (`",".join(chunk.extends)`, `list(chunk.calls)[:10]`) the model iterates in
  sorted order.  None of the verified properties depend on that order.
-/

/-- Configuration of the chunker, from `ChunkingConfig` in `ast_chunker.py`
(defaults `MIN=15`, `MAX=100`, `TARGET=50`, `CONTEXT=3`). -/
structure ChunkingConfig where
  MIN_CHUNK_SIZE : Int := 15
  MAX_CHUNK_SIZE : Int := 100
  TARGET_CHUNK_SIZE : Int := 50
  CONTEXT_LINES : Int := 3
deriving DecidableEq

/-- The `TypeScriptChunk` dataclass of `typescript_parser.py`.  Field defaults
mirror the dataclass defaults. -/
structure Chunk where
  content : String
  chunk_type : String
  name : String
  start_line : Int
  end_line : Int
  file_path : String
  language : String
  module_path : Option String := none
  class_name : Option String := none
  imports : List String := []
  exports : List String := []
  type_parameters : List String := []
  decorators : List String := []
  calls : Finset String := ∅
  «extends» : Finset String := ∅
  implements : Finset String := ∅
  uses_types : Finset String := ∅
  ecs_component : Bool := false
  ecs_system : Bool := false
  webxr_api_usage : Finset String := ∅
  three_js_usage : Finset String := ∅
  semantic_labels : Finset String := ∅
deriving DecidableEq

/-- Python `str.lower()` (ASCII case folding suffices for the vocabulary
involved). -/
def pyLower (s : String) : String :=
  ⟨s.data.map Char.toLower⟩

/-- Python `s.startswith(p)`. -/
def pyStartsWith (s p : String) : Bool :=
  p.data.isPrefixOf s.data

/-- Python `s[n:]`. -/
def pyDrop (s : String) (n : ℕ) : String :=
  ⟨s.data.drop n⟩

/-- Python `s.rstrip('0123456789')`. -/
def pyRstripDigits (s : String) : String :=
  ⟨(s.data.reverse.dropWhile Char.isDigit).reverse⟩

/-- Python `sep.join(parts)`. -/
def pyIntercalate (sep : String) : List String → String
  | [] => ""
  | [a] => a
  | a :: b :: rest => a ++ sep ++ pyIntercalate sep (b :: rest)

/-- Python's substring test `t in s` (true when `t` occurs contiguously in
`s`, and always true for the empty string). -/
def strContains (s t : String) : Bool :=
  (List.range (s.data.length + 1)).any fun i => t.data.isPrefixOf (s.data.drop i)

/-- Python `''.join(lines[a:b])` for `0 ≤ a ≤ b` (each line still carries its
newline, as `readlines` produces). -/
def sliceLines (lines : List String) (a b : Int) : String :=
  String.join ((lines.drop a.toNat).take (b.toNat - a.toNat))

/-- The lifecycle name list of `ASTChunker._are_related`. -/
def lifecycleNames : List String := ["on", "handle", "init", "update", "cleanup", "destroy"]

/-- `ASTChunker._are_related`: getter/setter pairing (early return), shared
lifecycle prefixes, then the shared digit-stripped base-name rule. -/
def are_related (name1 name2 : String) : Bool :=
  let n1 := pyLower name1
  let n2 := pyLower name2
  if pyStartsWith n1 "get" && pyStartsWith n2 "set" then decide (pyDrop n1 3 = pyDrop n2 3)
  else if pyStartsWith n1 "set" && pyStartsWith n2 "get" then decide (pyDrop n1 3 = pyDrop n2 3)
  else if lifecycleNames.any (fun p => pyStartsWith n1 p && pyStartsWith n2 p) then true
  else
    [n1, n2].any fun nm =>
      let base := pyRstripDigits nm
      strContains n1 base && strContains n2 base

/-- `ASTChunker._should_merge`, with each Python early `return False`
rendered as an `if`-guard. -/
def should_merge (cfg : ChunkingConfig) (chunk1 chunk2 : Chunk) : Bool :=
  if chunk1.file_path ≠ chunk2.file_path then false
  else if chunk2.start_line - chunk1.end_line > 5 then false
  else if chunk2.end_line - chunk1.start_line + 1 > cfg.MAX_CHUNK_SIZE then false
  else if chunk1.chunk_type = chunk2.chunk_type ∧
      (are_related chunk1.name chunk2.name ∨
        (chunk1.chunk_type = "function" ∧ chunk1.class_name = chunk2.class_name)) then true
  else if (chunk1.chunk_type = "interface" ∨ chunk1.chunk_type = "type") ∧
      (chunk2.chunk_type = "interface" ∨ chunk2.chunk_type = "type") then true
  else false

/-- `ASTChunker._merge_chunks`.  The fields not passed to the
`TypeScriptChunk` constructor in the source take their dataclass defaults. -/
def merge_chunks (fs : String → Option (List String)) (chunk1 chunk2 : Chunk) : Chunk :=
  let first := if chunk1.start_line < chunk2.start_line then chunk1 else chunk2
  let second := if chunk1.start_line < chunk2.start_line then chunk2 else chunk1
  let merged_content :=
    match fs first.file_path with
    | some lines => sliceLines lines (first.start_line - 1) second.end_line
    | none => first.content ++ "\n" ++ second.content
  { content := merged_content
    chunk_type := first.chunk_type ++ "_group"
    name := first.name ++ "_and_" ++ second.name
    start_line := first.start_line
    end_line := second.end_line
    file_path := first.file_path
    language := first.language
    imports := (first.imports ++ second.imports).dedup
    calls := first.calls ∪ second.calls
    «extends» := first.«extends» ∪ second.«extends»
    implements := first.implements ∪ second.implements
    uses_types := first.uses_types ∪ second.uses_types
    semantic_labels := insert "merged_chunk" (first.semantic_labels ∪ second.semantic_labels)
    ecs_component := first.ecs_component || second.ecs_component
    ecs_system := first.ecs_system || second.ecs_system
    webxr_api_usage := first.webxr_api_usage ∪ second.webxr_api_usage
    three_js_usage := first.three_js_usage ∪ second.three_js_usage }

/-- `ASTChunker._expand_with_context`.  A failed file read (the `except`
branch) returns the chunk unchanged; `//` is Python floor division. -/
def expand_with_context (cfg : ChunkingConfig) (fs : String → Option (List String))
    (chunk : Chunk) : Chunk :=
  match fs chunk.file_path with
  | none => chunk
  | some lines =>
      let total_lines : Int := lines.length
      let current_size := chunk.end_line - chunk.start_line + 1
      let needed := cfg.MIN_CHUNK_SIZE - current_size
      let expand_before := Int.fdiv needed 2
      let expand_after := needed - expand_before
      let new_start := max 1 (chunk.start_line - expand_before)
      let new_end := min total_lines (chunk.end_line + expand_after)
      { content := sliceLines lines (new_start - 1) new_end
        chunk_type := chunk.chunk_type
        name := chunk.name
        start_line := new_start
        end_line := new_end
        file_path := chunk.file_path
        language := chunk.language
        imports := chunk.imports
        calls := chunk.calls
        «extends» := chunk.«extends»
        implements := chunk.implements
        uses_types := chunk.uses_types
        semantic_labels := chunk.semantic_labels ∪ {"expanded_context"}
        ecs_component := chunk.ecs_component
        ecs_system := chunk.ecs_system
        webxr_api_usage := chunk.webxr_api_usage
        three_js_usage := chunk.three_js_usage }

/-- `ASTChunker._try_merge_small_chunk`: try the next unconsumed neighbour
first, then the previous one; on success return the merged chunk together
with the pair of indices that become consumed. -/
def try_merge_small_chunk (cfg : ChunkingConfig) (fs : String → Option (List String))
    (chunks : List Chunk) (index : ℕ) (consumed : Finset ℕ) : Option (Chunk × Finset ℕ) :=
  match chunks.get? index with
  | none => none
  | some current =>
    let fwd : Option (Chunk × Finset ℕ) :=
      if (index + 1) ∉ consumed then
        match chunks.get? (index + 1) with
        | some next_chunk =>
            if should_merge cfg current next_chunk then
              some (merge_chunks fs current next_chunk, {index, index + 1})
            else none
        | none => none
      else none
    match fwd with
    | some r => some r
    | none =>
        if 0 < index ∧ (index - 1) ∉ consumed then
          match chunks.get? (index - 1) with
          | some prev =>
              if should_merge cfg prev current then
                some (merge_chunks fs prev current, {index - 1, index})
              else none
          | none => none
        else none

/-- The `while` loop of `ASTChunker._optimize_file_chunks`, with fuel (the
index `i` grows by one per iteration, so `chunks.length` fuel is enough).
Each emitted chunk is paired with the set of input indices it accounts for;
the second component is the final `consumed` set. -/
def opt_loop (cfg : ChunkingConfig) (fs : String → Option (List String)) (chunks : List Chunk) :
    ℕ → ℕ → Finset ℕ → List (Chunk × Finset ℕ) × Finset ℕ
  | 0, _, consumed => ([], consumed)
  | fuel + 1, i, consumed =>
    match chunks.get? i with
    | none => ([], consumed)
    | some chunk =>
      if i ∈ consumed then opt_loop cfg fs chunks fuel (i + 1) consumed
      else
        let chunk_size := chunk.end_line - chunk.start_line + 1
        if chunk_size < cfg.MIN_CHUNK_SIZE then
          match try_merge_small_chunk cfg fs chunks i consumed with
          | some (merged, idxs) =>
              let r := opt_loop cfg fs chunks fuel (i + 1) (consumed ∪ idxs)
              ((merged, idxs) :: r.1, r.2)
          | none =>
              let r := opt_loop cfg fs chunks fuel (i + 1) consumed
              ((expand_with_context cfg fs chunk, {i}) :: r.1, r.2)
        else if chunk_size > cfg.MAX_CHUNK_SIZE then
          let r := opt_loop cfg fs chunks fuel (i + 1) (insert i consumed)
          (({ chunk with semantic_labels := insert "large_chunk" chunk.semantic_labels }, {i}) :: r.1, r.2)
        else
          let r := opt_loop cfg fs chunks fuel (i + 1) (insert i consumed)
          ((chunk, {i}) :: r.1, r.2)

/-- `ASTChunker._optimize_file_chunks` instrumented with provenance, starting
from index `0` and an empty `consumed` set. -/
def optimize_file_prov (cfg : ChunkingConfig) (fs : String → Option (List String))
    (chunks : List Chunk) : List (Chunk × Finset ℕ) × Finset ℕ :=
  opt_loop cfg fs chunks chunks.length 0 ∅

/-- The chunk list `ASTChunker._optimize_file_chunks` returns. -/
def optimize_file_chunks (cfg : ChunkingConfig) (fs : String → Option (List String))
    (chunks : List Chunk) : List Chunk :=
  (optimize_file_prov cfg fs chunks).1.map Prod.fst

/-- The validation at the end of `_optimize_file_chunks` warns unless the
number of consumed indices equals the number of input chunks. -/
def completeness_check_passes (cfg : ChunkingConfig) (fs : String → Option (List String))
    (chunks : List Chunk) : Bool :=
  (optimize_file_prov cfg fs chunks).2.card == chunks.length

/-- The keys of the Python dict `by_file` in `ASTChunker.optimize_chunks`, in
first-appearance order. -/
def file_keys (chunks : List Chunk) : List String :=
  chunks.foldl (fun ks c => if c.file_path ∈ ks then ks else ks ++ [c.file_path]) []

/-- `ASTChunker.optimize_chunks`: group by file (insertion order), sort each
group by `start_line` (Python's sort is stable, like `insertionSort`), and
optimize each group. -/
def optimize_chunks (cfg : ChunkingConfig) (fs : String → Option (List String))
    (chunks : List Chunk) : List Chunk :=
  if chunks.isEmpty then chunks
  else
    (file_keys chunks).flatMap fun fp =>
      optimize_file_chunks cfg fs
        (List.insertionSort (fun a b => a.start_line ≤ b.start_line)
          (chunks.filter fun c => c.file_path == fp))

/-- The default `ChunkingConfig()` used by `ASTChunker()`. -/
def cfgDefault : ChunkingConfig := {}

/-- `TypeScriptParser._detect_ecs_patterns`: content-based component/system
detection followed by the name-based `if`/`elif` labelling. -/
def detect_ecs_patterns (chunk : Chunk) : Chunk :=
  let content := pyLower chunk.content
  let c1 :=
    if strContains content "implements component" || strContains content "extends componentbase" then
      { chunk with ecs_component := true,
                   semantic_labels := insert "ecs_component" chunk.semantic_labels }
    else chunk
  let c2 :=
    if strContains content "extends system" || strContains content "implements isystem" ||
        decide ("createSystem" ∈ c1.«extends») then
      { c1 with ecs_system := true,
                semantic_labels := insert "ecs_system" c1.semantic_labels }
    else c1
  if strContains (pyLower c2.name) "transform" then
    { c2 with semantic_labels := insert "transform_component" c2.semantic_labels }
  else if strContains (pyLower c2.name) "physics" then
    { c2 with semantic_labels := insert "physics_component" c2.semantic_labels }
  else c2

/-- A value of the ChromaDB metadata map built by
`VectorStore._create_metadata` (scalars or — hypothetically — a native
list, which the source never stores). -/
inductive MetaValue where
  | strV : String → MetaValue
  | intV : Int → MetaValue
  | boolV : Bool → MetaValue
  | listV : List String → MetaValue
deriving DecidableEq

/-- The relative-path computation at the top of
`VectorStore._create_metadata` (`Path.parts` modelled as splitting on `/`). -/
def rel_path (fp : String) : String :=
  let parts : List String := (List.splitOnP (· = '/') fp.data).map String.mk
  if "src" ∈ parts then pyIntercalate "/" (parts.drop (parts.indexOf "src"))
  else fp

/-- Comma-join of a Python string set, iterated in sorted order (Python's
set order is unspecified; the serialized length does not depend on it). -/
def join_set (s : Finset String) : String :=
  pyIntercalate "," (s.sort (· ≤ ·))

/-- `VectorStore._create_metadata`.  Python truthiness (`if chunk.imports:`)
is emptiness of the container / `None`-or-empty for optional strings. -/
def create_metadata (chunk : Chunk) (source : Option String) : List (String × MetaValue) :=
  let base : List (String × MetaValue) :=
    [("chunk_type", .strV chunk.chunk_type),
     ("name", .strV chunk.name),
     ("file_path", .strV (rel_path chunk.file_path)),
     ("start_line", .intV chunk.start_line),
     ("end_line", .intV chunk.end_line),
     ("language", .strV chunk.language),
     ("size", .intV (chunk.end_line - chunk.start_line + 1))]
  let m1 := base ++ (match source with
    | some s => if s ≠ "" then [("source", .strV s)] else []
    | none => [])
  let m2 := m1 ++ (match chunk.class_name with
    | some cn => if cn ≠ "" then [("class_name", .strV cn)] else []
    | none => [])
  let m3 := m2 ++ (match chunk.module_path with
    | some mp => if mp ≠ "" then [("module_path", .strV mp)] else []
    | none => [])
  let m4 := m3 ++ (if chunk.semantic_labels ≠ ∅ then
      [("labels", .strV (join_set chunk.semantic_labels))] else [])
  let m5 := m4 ++ (if chunk.«extends» ≠ ∅ then
      [("extends", .strV (join_set chunk.«extends»))] else [])
  let m6 := m5 ++ (if chunk.implements ≠ ∅ then
      [("implements", .strV (join_set chunk.implements))] else [])
  let m7 := m6 ++ (if chunk.imports ≠ [] then
      (let imports_str := pyIntercalate "," (chunk.imports.take 5)
       if imports_str.length < 1000 then [("imports", .strV imports_str)] else [])
    else [])
  let m8 := m7 ++ (if chunk.calls ≠ ∅ then
      (let calls_str := pyIntercalate "," ((chunk.calls.sort (· ≤ ·)).take 10)
       if calls_str.length < 1000 then [("calls", .strV calls_str)] else [])
    else [])
  let m9 := m8 ++ (if chunk.webxr_api_usage ≠ ∅ then
      [("webxr_api", .strV (pyIntercalate "," ((chunk.webxr_api_usage.sort (· ≤ ·)).take 5)))]
    else [])
  m9 ++ [("ecs_component", .boolV chunk.ecs_component),
         ("ecs_system", .boolV chunk.ecs_system)]

/-- A tree-sitter node: its kind (`node.type`), the source text of its byte
span, its named fields (`child_by_field_name`), and its child list. -/
inductive TSNode : Type where
  | node (kind : String) (text : String) (fields : List (String × TSNode))
      (children : List TSNode) : TSNode

/-- Kind tag of a node. -/
def TSNode.kind : TSNode → String
  | .node k _ _ _ => k

/-- Source text of a node. -/
def TSNode.text : TSNode → String
  | .node _ t _ _ => t

/-- Named fields of a node. -/
def TSNode.fields : TSNode → List (String × TSNode)
  | .node _ _ f _ => f

/-- Children of a node. -/
def TSNode.children : TSNode → List TSNode
  | .node _ _ _ c => c

/-- `node.child_by_field_name(name)`. -/
def TSNode.field (n : TSNode) (name : String) : Option TSNode :=
  n.fields.lookup name

/-- `TypeScriptParser._find_nodes_by_type`: pre-order collection of all
descendants of the given kind, the node itself included. -/
def find_nodes_by_type : TSNode → String → List TSNode
  | .node k t f c, ty =>
      (if k = ty then [TSNode.node k t f c] else []) ++
      c.attach.flatMap fun ch => find_nodes_by_type ch.1 ty
termination_by n _ => sizeOf n
decreasing_by
  have := List.sizeOf_lt_of_mem ch.2
  simp only [TSNode.node.sizeOf_spec]
  omega

/-- Contribution of one `extends_clause` child inside
`TypeScriptParser._parse_class`: plain identifiers contribute their own
text, call expressions their callee's text, member expressions their full
qualified text. -/
def extends_entry (child : TSNode) : Finset String :=
  if child.kind = "identifier" ∨ child.kind = "type_identifier" then {child.text}
  else if child.kind = "call_expression" then
    match child.field "function" with
    | some f => {f.text}
    | none => ∅
  else if child.kind = "member_expression" then {child.text}
  else ∅

/-- The `extends` set `TypeScriptParser._parse_class` accumulates over the
heritage clauses of a class node. -/
def parse_class_extends (class_node : TSNode) : Finset String :=
  ((find_nodes_by_type class_node "class_heritage").flatMap fun h =>
      (find_nodes_by_type h "extends_clause").flatMap fun ec => ec.children).foldl
    (fun acc child => acc ∪ extends_entry child) ∅

/-- Union of the provenance sets recorded along an optimizer output list. -/
def prov_union (l : List (Chunk × Finset ℕ)) : Finset ℕ :=
  l.foldr (fun p acc => p.2 ∪ acc) ∅

/-- Modelled from the claim wording of C6: lowercased getter/setter prefix
pairing. -/
def spec_getter_setter_pair (l1 l2 : String) : Bool :=
  (pyStartsWith l1 "get" && pyStartsWith l2 "set") ||
    (pyStartsWith l1 "set" && pyStartsWith l2 "get")

/-- Modelled from the claim wording of C6: stripping the get/set prefix and
comparing remainders. -/
def spec_getter_setter_remainders (l1 l2 : String) : Bool :=
  decide (pyDrop l1 3 = pyDrop l2 3)

/-- Modelled from the claim wording of C6: a shared lifecycle prefix from
the fixed set. -/
def spec_lifecycle_shared (l1 l2 : String) : Bool :=
  lifecycleNames.any fun p => pyStartsWith l1 p && pyStartsWith l2 p

/-- Related names exactly as claim C6 words them: a getter/setter pair with
equal remainders, or a shared lifecycle prefix. -/
def spec_related_names (n1 n2 : String) : Bool :=
  let l1 := pyLower n1
  let l2 := pyLower n2
  (spec_getter_setter_pair l1 l2 && spec_getter_setter_remainders l1 l2) ||
    spec_lifecycle_shared l1 l2

/-- Merge eligibility exactly as claim C6 states it (no base-name rule). -/
def claimed_merge_eligible (cfg : ChunkingConfig) (c1 c2 : Chunk) : Bool :=
  (c1.file_path == c2.file_path) &&
  decide (c2.start_line - c1.end_line ≤ 5) &&
  decide (c2.end_line - c1.start_line + 1 ≤ cfg.MAX_CHUNK_SIZE) &&
  (((c1.chunk_type == c2.chunk_type) &&
      (spec_related_names c1.name c2.name ||
        ((c1.chunk_type == "function") && (c1.class_name == c2.class_name)))) ||
    (((c1.chunk_type == "interface") || (c1.chunk_type == "type")) &&
      ((c2.chunk_type == "interface") || (c2.chunk_type == "type"))))

/-- The base-name rule actually present in `_are_related`: stripping
trailing decimal digits from either lowercased name yields a string that
occurs inside both lowercased names. -/
def spec_base_name_shared (l1 l2 : String) : Bool :=
  [l1, l2].any fun nm =>
    let base := pyRstripDigits nm
    strContains l1 base && strContains l2 base

/-- Related names as amended for C6: a getter/setter prefix pair is decided
solely by its remainders; otherwise a shared lifecycle prefix or the shared
base-name rule decides. -/
def spec_related_names_amended (n1 n2 : String) : Bool :=
  let l1 := pyLower n1
  let l2 := pyLower n2
  if spec_getter_setter_pair l1 l2 then spec_getter_setter_remainders l1 l2
  else spec_lifecycle_shared l1 l2 || spec_base_name_shared l1 l2

/-- Getter chunk of the merge scenario in the spec (lines 10-14). -/
def chunkGetX : Chunk :=
  { content := "getX() { return this.x; }\n", chunk_type := "function", name := "getX",
    start_line := 10, end_line := 14, file_path := "pkg/src/point.ts", language := "typescript" }

/-- Setter chunk of the merge scenario in the spec (lines 16-19). -/
def chunkSetX : Chunk :=
  { content := "setX(v) { this.x = v; }\n", chunk_type := "function", name := "setX",
    start_line := 16, end_line := 19, file_path := "pkg/src/point.ts", language := "typescript" }

/-- A class chunk whose line range strictly contains `chunkInner`'s. -/
def chunkOuter : Chunk :=
  { content := "class Outer {}\n", chunk_type := "class", name := "Outer",
    start_line := 1, end_line := 50, file_path := "pkg/src/outer.ts", language := "typescript" }

/-- A chunk nested inside `chunkOuter`'s line range. -/
def chunkInner : Chunk :=
  { content := "class Inner {}\n", chunk_type := "class", name := "Inner",
    start_line := 10, end_line := 20, file_path := "pkg/src/outer.ts", language := "typescript" }

/-- A lone below-minimum chunk (5 lines with `MIN_CHUNK_SIZE = 15`). -/
def chunkLonelySmall : Chunk :=
  { content := "const a = 1\n", chunk_type := "function", name := "tiny",
    start_line := 1, end_line := 5, file_path := "pkg/src/tiny.ts", language := "typescript" }

/-- A 20-line file body for expansion demos. -/
def fsDemo : String → Option (List String) :=
  fun _ => some (List.replicate 20 "line\n")

/-- In-range chunk of file `f1.ts` starting late. -/
def chunkA5 : Chunk :=
  { content := "", chunk_type := "class", name := "A", start_line := 10, end_line := 30,
    file_path := "pkg/src/f1.ts", language := "typescript" }

/-- In-range chunk of file `f2.ts`. -/
def chunkB5 : Chunk :=
  { content := "", chunk_type := "class", name := "B", start_line := 1, end_line := 20,
    file_path := "pkg/src/f2.ts", language := "typescript" }

/-- In-range chunk of file `f1.ts` starting early. -/
def chunkC5 : Chunk :=
  { content := "", chunk_type := "class", name := "C", start_line := 1, end_line := 22,
    file_path := "pkg/src/f1.ts", language := "typescript" }

/-- In-range, sorted, single-file pair for the amended idempotence witness. -/
def chunkD5 : Chunk :=
  { content := "", chunk_type := "class", name := "D", start_line := 15, end_line := 35,
    file_path := "pkg/src/f3.ts", language := "typescript" }

/-- Second chunk of the single-file pair, after `chunkD5`. -/
def chunkE5 : Chunk :=
  { content := "", chunk_type := "class", name := "E", start_line := 40, end_line := 60,
    file_path := "pkg/src/f3.ts", language := "typescript" }

/-- Small class chunk named `Foo` (size 10, below minimum). -/
def chunkFoo : Chunk :=
  { content := "class Foo {}\n", chunk_type := "class", name := "Foo",
    start_line := 1, end_line := 10, file_path := "pkg/src/foo.ts", language := "typescript" }

/-- Class chunk named `FooBar`, two lines after `chunkFoo`. -/
def chunkFooBar : Chunk :=
  { content := "class FooBar {}\n", chunk_type := "class", name := "FooBar",
    start_line := 12, end_line := 20, file_path := "pkg/src/foo.ts", language := "typescript" }

/-- A chunk whose name contains both `transform` and `physics`. -/
def chunkTransformPhysics : Chunk :=
  { content := "class TransformPhysicsSync {}\n", chunk_type := "class",
    name := "TransformPhysicsSync", start_line := 1, end_line := 30,
    file_path := "pkg/src/tp.ts", language := "typescript" }

/-- A chunk whose name contains only `physics`. -/
def chunkPhysicsBody : Chunk :=
  { content := "class PhysicsBody {}\n", chunk_type := "class", name := "PhysicsBody",
    start_line := 1, end_line := 30, file_path := "pkg/src/pb.ts", language := "typescript" }

/-- A 1200-character inheritance target name. -/
def longBase : String := String.mk (List.replicate 1200 'A')

/-- A chunk whose `extends` set serializes to far more than 1000 characters. -/
def chunkLongExtends : Chunk :=
  { content := "", chunk_type := "class", name := "Big", start_line := 1, end_line := 30,
    file_path := "pkg/src/big.ts", language := "typescript", «extends» := {longBase} }

/-- A chunk with one recorded call, for the metadata witness. -/
def chunkCallsDemo : Chunk :=
  { content := "", chunk_type := "function", name := "caller", start_line := 1, end_line := 30,
    file_path := "pkg/src/calls.ts", language := "typescript", calls := {"foo"} }

/-- The `extends` keyword token child of an `extends_clause`. -/
def extendsKeywordNode : TSNode := .node "extends" "extends" [] []

/-- A class declaration whose heritage clause carries the given
`extends_clause` children. -/
def classNodeWith (clauseChildren : List TSNode) : TSNode :=
  .node "class_declaration" "class Foo …" [("name", .node "type_identifier" "Foo" [] [])]
    [.node "type_identifier" "Foo" [] [],
     .node "class_heritage" "" [] [.node "extends_clause" "" [] clauseChildren],
     .node "class_body" "{}" [] []]

/-!  Theorems.  Each claim of the specification audit is settled by exactly
one theorem below; shared helper lemmas precede them. -/

/-- C10: when re-reading the source file fails during expansion, the
original chunk is returned completely unchanged — same line range, same
content, no `expanded_context` label. -/
theorem expand_with_context_read_failure (cfg : ChunkingConfig)
    (fs : String → Option (List String)) (chunk : Chunk)
    (h : fs chunk.file_path = none) :
    expand_with_context cfg fs chunk = chunk := by
  unfold expand_with_context
  rw [h]

/-- Witness for C10 at a concrete chunk and an always-failing filesystem. -/
theorem expand_with_context_read_failure_witness :
    (fun _ => (none : Option (List String))) chunkLonelySmall.file_path = none ∧
    expand_with_context cfgDefault (fun _ => none) chunkLonelySmall = chunkLonelySmall :=
  ⟨rfl, expand_with_context_read_failure cfgDefault (fun _ => none) chunkLonelySmall rfl⟩

/-- C3: a merged chunk's relationship sets are exact unions of the inputs'
sets, its `semantic_labels` are the union plus the `merged_chunk` marker,
and each ECS boolean flag is the logical OR of the inputs' flags. -/
theorem merge_chunks_union_laws (fs : String → Option (List String)) (a b : Chunk) :
    (merge_chunks fs a b).«extends» = a.«extends» ∪ b.«extends» ∧
    (merge_chunks fs a b).implements = a.implements ∪ b.implements ∧
    (merge_chunks fs a b).calls = a.calls ∪ b.calls ∧
    (merge_chunks fs a b).uses_types = a.uses_types ∪ b.uses_types ∧
    (merge_chunks fs a b).semantic_labels =
      insert "merged_chunk" (a.semantic_labels ∪ b.semantic_labels) ∧
    (merge_chunks fs a b).webxr_api_usage = a.webxr_api_usage ∪ b.webxr_api_usage ∧
    (merge_chunks fs a b).three_js_usage = a.three_js_usage ∪ b.three_js_usage ∧
    (merge_chunks fs a b).ecs_component = (a.ecs_component || b.ecs_component) ∧
    (merge_chunks fs a b).ecs_system = (a.ecs_system || b.ecs_system) := by
  unfold merge_chunks
  by_cases h : a.start_line < b.start_line <;>
    simp [h, Finset.union_comm, Bool.or_comm]

/-- C4 counterexample: for nested input ranges (`chunkInner` lies inside
`chunkOuter`) the merged range is not the union of the two ranges — the
merged `end_line` is the inner chunk's, not the maximum. -/
theorem merge_chunks_range_counterexample :
    ¬ ((merge_chunks (fun _ => none) chunkOuter chunkInner).start_line =
        min chunkOuter.start_line chunkInner.start_line ∧
      (merge_chunks (fun _ => none) chunkOuter chunkInner).end_line =
        max chunkOuter.end_line chunkInner.end_line) := by
  decide

/-- C4 amended: the merged `start_line` is always the minimum of the two
starts, and the merged `end_line` is the `end_line` of the later-starting
chunk — which equals the maximum exactly when the later-starting chunk ends
no earlier than the other (always the case for non-nested chunks). -/
theorem merge_chunks_range_amended (fs : String → Option (List String)) (a b : Chunk)
    (h1 : a.start_line < b.start_line → a.end_line ≤ b.end_line)
    (h2 : ¬ a.start_line < b.start_line → b.end_line ≤ a.end_line) :
    (merge_chunks fs a b).start_line = min a.start_line b.start_line ∧
    (merge_chunks fs a b).end_line = max a.end_line b.end_line := by
  unfold merge_chunks
  by_cases h : a.start_line < b.start_line
  · have := h1 h
    simp only [h, if_pos]
    constructor <;> omega
  · have := h2 h
    simp only [h, if_neg, if_false]
    constructor <;> omega

/-- Witness for C4 amended at the getter/setter scenario chunks. -/
theorem merge_chunks_range_amended_witness :
    (merge_chunks (fun _ => none) chunkGetX chunkSetX).start_line =
      min chunkGetX.start_line chunkSetX.start_line ∧
    (merge_chunks (fun _ => none) chunkGetX chunkSetX).end_line =
      max chunkGetX.end_line chunkSetX.end_line :=
  merge_chunks_range_amended (fun _ => none) chunkGetX chunkSetX (by decide) (by decide)

/-- C2: the claim is right and the code is wrong.  A lone 5-line chunk is
expanded (the output is exactly the expanded chunk, carrying the
`expanded_context` label), but the expansion branch never adds its index to
`consumed`, so the final `consumed` set stays empty and the completeness
check reports a shortfall even though nothing was dropped. -/
theorem expansion_index_never_consumed :
    completeness_check_passes cfgDefault fsDemo [chunkLonelySmall] = false ∧
    (optimize_file_prov cfgDefault fsDemo [chunkLonelySmall]).2 = (∅ : Finset ℕ) ∧
    optimize_file_chunks cfgDefault fsDemo [chunkLonelySmall] =
      [expand_with_context cfgDefault fsDemo chunkLonelySmall] ∧
    "expanded_context" ∈ (expand_with_context cfgDefault fsDemo chunkLonelySmall).semantic_labels := by
  decide

/-- C5 counterexample: a list of three chunks, each already inside
`[MIN, MAX]`, whose files are interleaved; the optimizer returns the same
chunks but in a different order, so the output is not the identical list. -/
theorem optimize_chunks_reorders_counterexample :
    optimize_chunks cfgDefault (fun _ => none) [chunkA5, chunkB5, chunkC5] ≠
      [chunkA5, chunkB5, chunkC5] := by
  decide

/-- C6 counterexample: two `class` chunks named `Foo` and `FooBar` in the
same file, 2 lines apart, combined size 20: the code merges them (via the
base-name rule of `_are_related`), yet they satisfy none of the relatedness
conditions listed by the claim. -/
theorem should_merge_base_name_counterexample :
    should_merge cfgDefault chunkFoo chunkFooBar = true ∧
    claimed_merge_eligible cfgDefault chunkFoo chunkFooBar = false := by
  decide

/-- C8 counterexample: a chunk named `TransformPhysicsSync` matches both
name heuristics, yet neither ECS boolean flag is set and the `physics`
label is skipped because the `elif` only runs when `transform` missed. -/
theorem detect_ecs_name_counterexample :
    (detect_ecs_patterns chunkTransformPhysics).ecs_component = false ∧
    (detect_ecs_patterns chunkTransformPhysics).ecs_system = false ∧
    "physics_component" ∉ (detect_ecs_patterns chunkTransformPhysics).semantic_labels ∧
    strContains (pyLower chunkTransformPhysics.name) "transform" = true ∧
    strContains (pyLower chunkTransformPhysics.name) "physics" = true := by
  decide

/-- The code's `_are_related` coincides with the spec-worded relatedness
once the base-name rule and the getter/setter early return are included. -/
lemma are_related_eq_spec (n1 n2 : String) :
    are_related n1 n2 = spec_related_names_amended n1 n2 := by
  unfold are_related spec_related_names_amended spec_getter_setter_pair
    spec_getter_setter_remainders spec_lifecycle_shared spec_base_name_shared
  cases h1 : pyStartsWith (pyLower n1) "get" <;>
  cases h2 : pyStartsWith (pyLower n2) "set" <;>
  cases h3 : pyStartsWith (pyLower n1) "set" <;>
  cases h4 : pyStartsWith (pyLower n2) "get" <;>
    simp [h1, h2, h3, h4, List.any_eq]

/-- C6 amended: a pair is merge-eligible iff same file, gap at most 5,
combined size at most `MAX_CHUNK_SIZE`, and either the same `chunk_type`
with related names — where relatedness additionally includes the shared
digit-stripped base-name rule, a getter/setter prefix pair being decided
solely by its remainders — or the function-with-equal-`class_name` case, or
both types in `{interface, type}`. -/
theorem should_merge_characterization_amended (cfg : ChunkingConfig) (c1 c2 : Chunk) :
    should_merge cfg c1 c2 = true ↔
      (c1.file_path = c2.file_path ∧
       c2.start_line - c1.end_line ≤ 5 ∧
       c2.end_line - c1.start_line + 1 ≤ cfg.MAX_CHUNK_SIZE ∧
       ((c1.chunk_type = c2.chunk_type ∧
          (spec_related_names_amended c1.name c2.name = true ∨
           (c1.chunk_type = "function" ∧ c1.class_name = c2.class_name))) ∨
        ((c1.chunk_type = "interface" ∨ c1.chunk_type = "type") ∧
         (c2.chunk_type = "interface" ∨ c2.chunk_type = "type")))) := by
  rw [← are_related_eq_spec]
  unfold should_merge
  split_ifs with hf hg hs hrel hint <;> simp_all <;>
    first
      | omega
      | (rcases hrel with ⟨hty, hd⟩
         rcases hd with hare | ⟨hfn, hcn⟩
         exacts [Or.inl (Or.inl hare), Or.inl (Or.inr ⟨hty ▸ hfn, hcn⟩)])

/-- C8 amended: the name heuristic only adds labels — a name containing
`transform` (case-insensitive) gets the `transform_component` label, a name
containing `physics` gets `physics_component` only when the transform check
missed, and the ECS boolean flags are exactly what the content/extends
checks dictate, independent of the name. -/
theorem detect_ecs_name_heuristic_amended (chunk : Chunk) :
    (strContains (pyLower chunk.name) "transform" = true →
      "transform_component" ∈ (detect_ecs_patterns chunk).semantic_labels) ∧
    (strContains (pyLower chunk.name) "transform" = false →
      strContains (pyLower chunk.name) "physics" = true →
      "physics_component" ∈ (detect_ecs_patterns chunk).semantic_labels) ∧
    ((detect_ecs_patterns chunk).ecs_component = true ↔
      (chunk.ecs_component = true ∨
        strContains (pyLower chunk.content) "implements component" = true ∨
        strContains (pyLower chunk.content) "extends componentbase" = true)) ∧
    ((detect_ecs_patterns chunk).ecs_system = true ↔
      (chunk.ecs_system = true ∨
        strContains (pyLower chunk.content) "extends system" = true ∨
        strContains (pyLower chunk.content) "implements isystem" = true ∨
        "createSystem" ∈ chunk.«extends»)) := by
  simp only [detect_ecs_patterns]
  split_ifs <;> simp_all <;> tauto

/-- Witness for C8 amended at a transform-named and a physics-named chunk. -/
theorem detect_ecs_name_heuristic_amended_witness :
    "transform_component" ∈ (detect_ecs_patterns chunkTransformPhysics).semantic_labels ∧
    "physics_component" ∈ (detect_ecs_patterns chunkPhysicsBody).semantic_labels :=
  ⟨(detect_ecs_name_heuristic_amended chunkTransformPhysics).1 (by decide),
   (detect_ecs_name_heuristic_amended chunkPhysicsBody).2.1 (by decide) (by decide)⟩

set_option maxRecDepth 100000 in
/-- C9 counterexample: a chunk whose single inheritance target is a
1200-character name; the stored `extends` metadata string is the full
comma-join, 1200 characters long, far above the 1000-character cap the
claim asserts for every relationship field. -/
theorem metadata_extends_uncapped_counterexample :
    (create_metadata chunkLongExtends none).lookup "extends" =
      some (.strV (join_set chunkLongExtends.«extends»)) ∧
    1000 < (join_set chunkLongExtends.«extends»).length := by
  constructor
  · rfl
  · show 1000 < (join_set {longBase}).length
    unfold join_set
    rw [Finset.sort_singleton]
    decide

set_option maxHeartbeats 2000000 in
/-- C9 amended: no metadata field is ever stored as a native list, and the
`imports`/`calls` strings are capped below 1000 characters (the field is
omitted when the joined string reaches the cap); the `extends`,
`implements` and `webxr_api` strings are comma-joined without a length
cap. -/
theorem metadata_relationship_serialization_amended (chunk : Chunk) (source : Option String)
    (k : String) (v : MetaValue) (hmem : (k, v) ∈ create_metadata chunk source) :
    (∀ xs, v ≠ .listV xs) ∧
    ((k = "imports" ∨ k = "calls") → ∃ s, v = .strV s ∧ s.length < 1000) := by
  rcases source with _ | src <;>
  rcases hcn : chunk.class_name with _ | cn <;>
  rcases hmp : chunk.module_path with _ | mp <;>
    simp only [create_metadata, hcn, hmp] at hmem <;>
    (repeat split at hmem) <;>
    simp only [List.mem_append, List.mem_cons, List.not_mem_nil, or_false, false_or,
      Prod.mk.injEq, or_assoc] at hmem <;>
    casesm* _ ∨ _, _ ∧ _ <;>
    subst_vars <;>
    refine ⟨fun xs => ?_, fun hk => ?_⟩ <;>
    simp_all

/-- Witness for C9 amended at a chunk with one recorded call: the stored
`calls` entry is the short comma-join, a string below the cap. -/
theorem metadata_relationship_serialization_amended_witness :
    ("calls", MetaValue.strV "foo") ∈ create_metadata chunkCallsDemo none ∧
    (∀ xs, MetaValue.strV "foo" ≠ MetaValue.listV xs) ∧
    (∃ s, MetaValue.strV "foo" = .strV s ∧ s.length < 1000) := by
  have hsort : pyIntercalate "," ((Finset.sort (· ≤ ·) ({"foo"} : Finset String)).take 10) =
      "foo" := by
    rw [Finset.sort_singleton]
    decide
  have hmem : ("calls", MetaValue.strV "foo") ∈ create_metadata chunkCallsDemo none := by
    simp [create_metadata, chunkCallsDemo, hsort]
    decide
  have happ := metadata_relationship_serialization_amended chunkCallsDemo none "calls"
      (MetaValue.strV "foo") hmem
  exact ⟨hmem, happ.1, happ.2 (Or.inr rfl)⟩

/-- Flat-mapping over `attach` is flat-mapping over the list itself. -/
lemma attach_flatMap {α β : Type _} (c : List α) (g : α → List β) :
    c.attach.flatMap (fun x => g x.1) = c.flatMap g := by
  rw [List.flatMap_def, List.flatMap_def, List.attach_map_val]

/-- Unfolding equation of `find_nodes_by_type` without `attach`. -/
lemma find_nodes_by_type_eq (k t : String) (f : List (String × TSNode)) (c : List TSNode)
    (ty : String) :
    find_nodes_by_type (.node k t f c) ty =
      (if k = ty then [TSNode.node k t f c] else []) ++ c.flatMap (find_nodes_by_type · ty) := by
  rw [find_nodes_by_type]
  congr 1
  exact attach_flatMap c (find_nodes_by_type · ty)

/-- C7: heritage resolution over an `extends_clause`.  A plain
identifier or type-identifier child contributes its own text; a call
expression child contributes its callee's text, not the full call text
(`extends createSystem(Base)` yields `{"createSystem"}`); a member
expression child contributes its full qualified text (`extends Three.Group`
yields `{"Three.Group"}`). -/
theorem parse_class_extends_heritage_resolution
    (idText memberText calleeText callText argsText : String) :
    parse_class_extends (classNodeWith [extendsKeywordNode, .node "identifier" idText [] []]) =
      {idText} ∧
    parse_class_extends (classNodeWith [extendsKeywordNode,
        .node "type_identifier" idText [] []]) = {idText} ∧
    parse_class_extends (classNodeWith [extendsKeywordNode,
        .node "call_expression" callText
          [("function", .node "identifier" calleeText [] [])]
          [.node "identifier" calleeText [] [], .node "arguments" argsText [] []]]) =
      {calleeText} ∧
    parse_class_extends (classNodeWith [extendsKeywordNode,
        .node "member_expression" memberText [] []]) = {memberText} := by
  refine ⟨?_, ?_, ?_, ?_⟩ <;>
    simp [parse_class_extends, classNodeWith, extendsKeywordNode, find_nodes_by_type_eq,
      extends_entry, TSNode.field, TSNode.kind, TSNode.text, TSNode.children, TSNode.fields,
      List.lookup]

/-- Folding the `by_file` key accumulator over chunks of one file keeps
the single key. -/
lemma file_keys_foldl_const {fp : String} :
    ∀ (l : List Chunk), (∀ c ∈ l, c.file_path = fp) →
      l.foldl (fun ks c => if c.file_path ∈ ks then ks else ks ++ [c.file_path]) [fp] = [fp] := by
  intro l
  induction l with
  | nil => intro _; rfl
  | cons a l ih =>
      intro h
      have ha : a.file_path = fp := h a (by simp)
      simp only [List.foldl_cons, ha, List.mem_singleton, if_pos rfl]
      exact ih fun c hc => h c (by simp [hc])

/-- `file_keys` of a non-empty single-file chunk list is that one file. -/
lemma file_keys_all_eq (fp : String) {chunks : List Chunk} (hne : chunks ≠ [])
    (hall : ∀ c ∈ chunks, c.file_path = fp) : file_keys chunks = [fp] := by
  cases chunks with
  | nil => exact absurd rfl hne
  | cons a l =>
      have ha : a.file_path = fp := hall a (by simp)
      unfold file_keys
      simp only [List.foldl_cons, List.not_mem_nil, if_false, List.nil_append, ha]
      exact file_keys_foldl_const l fun c hc => hall c (by simp [hc])

/-- When every chunk is inside the configured band, the scan emits each
chunk unchanged, in order. -/
lemma opt_loop_in_range (cfg : ChunkingConfig) (fs : String → Option (List String))
    (chunks : List Chunk)
    (hsize : ∀ c ∈ chunks, ¬(c.end_line - c.start_line + 1 < cfg.MIN_CHUNK_SIZE) ∧
        ¬(c.end_line - c.start_line + 1 > cfg.MAX_CHUNK_SIZE)) :
    ∀ (fuel i : ℕ) (consumed : Finset ℕ), chunks.length ≤ fuel + i →
      (∀ j ∈ consumed, j < i) →
      (opt_loop cfg fs chunks fuel i consumed).1.map Prod.fst = chunks.drop i := by
  intro fuel
  induction fuel with
  | zero =>
      intro i consumed hlen _
      rw [opt_loop, List.drop_eq_nil_of_le (by omega)]
      rfl
  | succ fuel ih =>
      intro i consumed hlen hcons
      cases hget : chunks.get? i with
      | none =>
          have hlen2 : chunks.length ≤ i := List.get?_eq_none.1 hget
          rw [opt_loop, hget, List.drop_eq_nil_of_le hlen2]
          rfl
      | some chunk =>
          obtain ⟨hi, hgeteq⟩ := List.get?_eq_some.1 hget
          have hmem : chunk ∈ chunks := List.get?_mem hget
          have hnc : i ∉ consumed := fun h => absurd (hcons i h) (lt_irrefl i)
          have h1 := (hsize chunk hmem).1
          have h2 := (hsize chunk hmem).2
          have hrec := ih (i + 1) (insert i consumed) (by omega)
            (fun j hj => by
              rcases Finset.mem_insert.1 hj with rfl | hj
              · omega
              · exact Nat.lt_succ_of_lt (hcons j hj))
          have hgetelem : chunks[i] = chunk := by
            rw [List.get_eq_getElem] at hgeteq; exact hgeteq
          simp only [opt_loop, hget, hnc, h1, h2, if_false, ite_false, List.map_cons, hrec]
          rw [List.drop_eq_getElem_cons hi, hgetelem]

/-- C5 amended: on a chunk list already fully within `[MIN, MAX]` the
optimizer returns the same chunk objects unmodified; the output is the
identical list whenever the chunks all belong to one file and are already
sorted by `start_line` (otherwise the by-file regrouping and per-file sort
may reorder them, as the counterexample shows). -/
theorem optimize_chunks_in_range_amended (cfg : ChunkingConfig)
    (fs : String → Option (List String)) (chunks : List Chunk)
    (hsize : ∀ c ∈ chunks, cfg.MIN_CHUNK_SIZE ≤ c.end_line - c.start_line + 1 ∧
        c.end_line - c.start_line + 1 ≤ cfg.MAX_CHUNK_SIZE)
    (hfile : ∀ c ∈ chunks, ∀ d ∈ chunks, c.file_path = d.file_path)
    (hsorted : chunks.Sorted fun a b => a.start_line ≤ b.start_line) :
    optimize_chunks cfg fs chunks = chunks := by
  cases chunks with
  | nil => rfl
  | cons a l =>
      unfold optimize_chunks
      rw [if_neg (by simp)]
      rw [file_keys_all_eq a.file_path (by simp)
        (fun c hc => hfile c hc a (by simp))]
      have hfilter : (a :: l).filter (fun c => c.file_path == a.file_path) = a :: l :=
        List.filter_eq_self.2 fun c hc => beq_iff_eq.2 (hfile c hc a (by simp))
      simp only [List.flatMap_cons, List.flatMap_nil, List.append_nil, hfilter]
      rw [List.Sorted.insertionSort_eq hsorted]
      unfold optimize_file_chunks optimize_file_prov
      exact opt_loop_in_range cfg fs (a :: l)
        (fun c hc => ⟨by have := (hsize c hc).1; omega, by have := (hsize c hc).2; omega⟩)
        (a :: l).length 0 ∅ (by omega) (by simp)

/-- Witness for C5 amended at a sorted in-range single-file pair. -/
theorem optimize_chunks_in_range_amended_witness :
    optimize_chunks cfgDefault (fun _ => none) [chunkD5, chunkE5] = [chunkD5, chunkE5] :=
  optimize_chunks_in_range_amended cfgDefault (fun _ => none) [chunkD5, chunkE5]
    (by decide) (by decide) (by decide)

/-- Unfolding `prov_union` over a cons. -/
lemma prov_union_cons (p : Chunk × Finset ℕ) (l : List (Chunk × Finset ℕ)) :
    prov_union (p :: l) = p.2 ∪ prov_union l := rfl

/-- Each recorded provenance set sits inside the union of them all. -/
lemma subset_prov_union {l : List (Chunk × Finset ℕ)} {p : Chunk × Finset ℕ} (hp : p ∈ l) :
    p.2 ⊆ prov_union l := by
  induction l with
  | nil => cases hp
  | cons q l ih =>
      rcases List.mem_cons.1 hp with rfl | hp
      · exact Finset.subset_union_left
      · exact (ih hp).trans Finset.subset_union_right

/-- Behaviour of `_try_merge_small_chunk` in every state the scan can
reach: when it merges, it merges forward with the next chunk and consumes
exactly the pair `{i, i+1}`; the backward fallback can never fire, because
a previous unconsumed chunk can only be one whose own forward merge with
chunk `i` already failed the same deterministic `_should_merge` test. -/
lemma try_merge_spec (cfg : ChunkingConfig) (fs : String → Option (List String))
    (chunks : List Chunk) (i : ℕ) (consumed : Finset ℕ) (current : Chunk)
    (hget : chunks.get? i = some current)
    (hcons : ∀ j ∈ consumed, j ≤ i)
    (hinv : ∀ j cj cj1, chunks.get? j = some cj → chunks.get? (j + 1) = some cj1 →
        j + 1 ≤ i → j ∉ consumed → should_merge cfg cj cj1 = false) :
    (try_merge_small_chunk cfg fs chunks i consumed = none ∧
      ∀ ci1, chunks.get? (i + 1) = some ci1 → should_merge cfg current ci1 = false) ∨
    (∃ ci1, chunks.get? (i + 1) = some ci1 ∧ should_merge cfg current ci1 = true ∧
      try_merge_small_chunk cfg fs chunks i consumed =
        some (merge_chunks fs current ci1, {i, i + 1})) := by
  have hnext : (i + 1) ∉ consumed := fun h => by have := hcons _ h; omega
  have hbackward :
      (if 0 < i ∧ (i - 1) ∉ consumed then
        match chunks.get? (i - 1) with
        | some prev =>
            if should_merge cfg prev current then
              some (merge_chunks fs prev current, {i - 1, i})
            else none
        | none => none
      else none) = (none : Option (Chunk × Finset ℕ)) := by
    by_cases hb : 0 < i ∧ (i - 1) ∉ consumed
    · rw [if_pos hb]
      have hi : i < chunks.length := (List.get?_eq_some.1 hget).1
      cases hgp : chunks.get? (i - 1) with
      | none => exact absurd (List.get?_eq_none.1 hgp) (by omega)
      | some prev =>
          have hstep : chunks.get? (i - 1 + 1) = some current := by
            have heq : i - 1 + 1 = i := by omega
            rw [heq]; exact hget
          simp [hinv (i - 1) prev current hgp hstep (by omega) hb.2]
    · exact if_neg hb
  unfold try_merge_small_chunk
  rw [hget]
  cases hget1 : chunks.get? (i + 1) with
  | none =>
      left
      refine ⟨?_, fun ci1 h => Option.noConfusion h⟩
      simp only [hnext, not_false_iff, if_true]
      exact hbackward
  | some next =>
      by_cases hsm : should_merge cfg current next
      · right
        refine ⟨next, rfl, hsm, ?_⟩
        simp only [hnext, not_false_iff, if_true, if_pos hsm]
      · left
        refine ⟨?_, fun ci1 h => by
          cases Option.some.inj h
          exact Bool.eq_false_iff.mpr hsm⟩
        simp only [hnext, not_false_iff, if_true, if_neg hsm]
        exact hbackward

/-- Scan invariant: from index `i` with a `consumed` set that only holds
indices at most `i`, and such that every unconsumed earlier index already
failed its forward merge, the provenance sets emitted by the rest of the
scan are pairwise disjoint and cover exactly the not-yet-consumed indices
from `i` on. -/
lemma opt_loop_partition (cfg : ChunkingConfig) (fs : String → Option (List String))
    (chunks : List Chunk) :
    ∀ (fuel i : ℕ) (consumed : Finset ℕ),
      chunks.length ≤ fuel + i →
      (∀ j ∈ consumed, j ≤ i) →
      (∀ j cj cj1, chunks.get? j = some cj → chunks.get? (j + 1) = some cj1 →
          j + 1 ≤ i → j ∉ consumed → should_merge cfg cj cj1 = false) →
      List.Pairwise (fun p q => Disjoint p.2 q.2) (opt_loop cfg fs chunks fuel i consumed).1 ∧
      prov_union (opt_loop cfg fs chunks fuel i consumed).1 =
        (Finset.range chunks.length).filter (fun j => i ≤ j) \ consumed := by
  intro fuel
  induction fuel with
  | zero =>
      intro i consumed hlen hcons hinv
      rw [opt_loop]
      refine ⟨List.Pairwise.nil, ?_⟩
      ext j
      simp only [prov_union, List.foldr_nil, Finset.not_mem_empty, false_iff, Finset.mem_sdiff,
        Finset.mem_filter, Finset.mem_range]
      rintro ⟨⟨hj, hij⟩, -⟩
      omega
  | succ fuel ih =>
      intro i consumed hlen hcons hinv
      cases hget : chunks.get? i with
      | none =>
          have hlen2 : chunks.length ≤ i := List.get?_eq_none.1 hget
          rw [opt_loop, hget]
          refine ⟨List.Pairwise.nil, ?_⟩
          ext j
          simp only [prov_union, List.foldr_nil, Finset.not_mem_empty, false_iff,
            Finset.mem_sdiff, Finset.mem_filter, Finset.mem_range]
          rintro ⟨⟨hj, hij⟩, -⟩
          omega
      | some chunk =>
          have hi : i < chunks.length := (List.get?_eq_some.1 hget).1
          by_cases hic : i ∈ consumed
          · have hrec := ih (i + 1) consumed (by omega)
              (fun j hj => by have := hcons j hj; omega)
              (fun j cj cj1 h1 h2 hj hjc => by
                by_cases hji : j = i
                · subst hji; exact absurd hic hjc
                · exact hinv j cj cj1 h1 h2 (by omega) hjc)
            simp only [opt_loop, hget, hic, if_true]
            refine ⟨hrec.1, ?_⟩
            rw [hrec.2]
            ext j
            simp only [Finset.mem_sdiff, Finset.mem_filter, Finset.mem_range]
            by_cases hjc : j ∈ consumed
            · simp [hjc]
            · have hne : j ≠ i := fun h => hjc (h ▸ hic)
              simp only [hjc, not_false_iff, and_true]
              omega
          · by_cases hsmall : chunk.end_line - chunk.start_line + 1 < cfg.MIN_CHUNK_SIZE
            · rcases try_merge_spec cfg fs chunks i consumed chunk hget hcons hinv with
                ⟨htm, hfail⟩ | ⟨next, hget1, hsm, htm⟩
              · -- merge impossible: expand, index i accounted alone, consumed unchanged
                have hrec := ih (i + 1) consumed (by omega)
                  (fun j hj => by have := hcons j hj; omega)
                  (fun j cj cj1 h1 h2 hj hjc => by
                    by_cases hji : j = i
                    · subst hji
                      cases Option.some.inj (hget.symm.trans h1)
                      exact hfail cj1 h2
                    · exact hinv j cj cj1 h1 h2 (by omega) hjc)
                simp only [opt_loop, hget, hic, if_false, hsmall, if_true, htm]
                constructor
                · refine List.Pairwise.cons (fun q hq => ?_) hrec.1
                  have hsub := subset_prov_union hq
                  rw [hrec.2] at hsub
                  refine Finset.disjoint_left.2 fun x hx hxq => ?_
                  have hmem2 := hsub hxq
                  rw [Finset.mem_singleton] at hx
                  subst hx
                  have hx2 := (Finset.mem_filter.1 (Finset.mem_sdiff.1 hmem2).1).2
                  omega
                · rw [prov_union_cons, hrec.2]
                  ext j
                  simp only [Finset.mem_union, Finset.mem_singleton, Finset.mem_sdiff,
                    Finset.mem_filter, Finset.mem_range]
                  by_cases hjc : j ∈ consumed
                  · have hne : j ≠ i := fun h => hic (h ▸ hjc)
                    simp [hjc, hne]
                  · simp only [hjc, not_false_iff, and_true]
                    omega
              · -- forward merge: i and i+1 accounted together
                have hi1 : i + 1 < chunks.length := (List.get?_eq_some.1 hget1).1
                have hnext : (i + 1) ∉ consumed := fun h => by have := hcons _ h; omega
                have hrec := ih (i + 1) (consumed ∪ {i, i + 1}) (by omega)
                  (fun j hj => by
                    rcases Finset.mem_union.1 hj with hj | hj
                    · have := hcons j hj; omega
                    · rcases Finset.mem_insert.1 hj with rfl | hj
                      · omega
                      · rw [Finset.mem_singleton] at hj; omega)
                  (fun j cj cj1 h1 h2 hj hjc => by
                    have hjc' : j ∉ consumed := fun h => hjc (Finset.mem_union_left _ h)
                    have hjne : j ≠ i := fun h =>
                      hjc (by subst h; exact Finset.mem_union_right _ (Finset.mem_insert_self _ _))
                    exact hinv j cj cj1 h1 h2 (by omega) hjc')
                simp only [opt_loop, hget, hic, if_false, hsmall, if_true, htm]
                constructor
                · refine List.Pairwise.cons (fun q hq => ?_) hrec.1
                  have hsub := subset_prov_union hq
                  rw [hrec.2] at hsub
                  refine Finset.disjoint_left.2 fun x hx hxq => ?_
                  have hxc := (Finset.mem_sdiff.1 (hsub hxq)).2
                  exact hxc (Finset.mem_union_right _ hx)
                · rw [prov_union_cons, hrec.2]
                  ext j
                  simp only [Finset.mem_union, Finset.mem_insert, Finset.mem_singleton,
                    Finset.mem_sdiff, Finset.mem_filter, Finset.mem_range]
                  by_cases hjc : j ∈ consumed
                  · have hne : j ≠ i := fun h => hic (h ▸ hjc)
                    have hne1 : j ≠ i + 1 := fun h => hnext (h ▸ hjc)
                    simp [hjc, hne, hne1]
                  · simp only [hjc, not_false_iff, and_true, false_or]
                    omega
            · -- in-range and oversized branches: same accounting shape
              have hrec := ih (i + 1) (insert i consumed) (by omega)
                (fun j hj => by
                  rcases Finset.mem_insert.1 hj with rfl | hj
                  · omega
                  · have := hcons j hj; omega)
                (fun j cj cj1 h1 h2 hj hjc => by
                  have hjne : j ≠ i := fun h => hjc (h ▸ Finset.mem_insert_self _ _)
                  have hjc' : j ∉ consumed := fun h => hjc (Finset.mem_insert_of_mem h)
                  exact hinv j cj cj1 h1 h2 (by omega) hjc')
              have hcommon : ∀ ch : Chunk,
                  List.Pairwise (fun p q => Disjoint p.2 q.2)
                    ((ch, ({i} : Finset ℕ)) ::
                      (opt_loop cfg fs chunks fuel (i + 1) (insert i consumed)).1) ∧
                  prov_union ((ch, ({i} : Finset ℕ)) ::
                      (opt_loop cfg fs chunks fuel (i + 1) (insert i consumed)).1) =
                    (Finset.range chunks.length).filter (fun j => i ≤ j) \ consumed := by
                intro ch
                constructor
                · refine List.Pairwise.cons (fun q hq => ?_) hrec.1
                  have hsub := subset_prov_union hq
                  rw [hrec.2] at hsub
                  refine Finset.disjoint_left.2 fun x hx hxq => ?_
                  have hxc := (Finset.mem_sdiff.1 (hsub hxq)).2
                  rw [Finset.mem_singleton] at hx
                  exact hxc (hx ▸ Finset.mem_insert_self _ _)
                · rw [prov_union_cons, hrec.2]
                  ext j
                  simp only [Finset.mem_union, Finset.mem_singleton, Finset.mem_sdiff,
                    Finset.mem_filter, Finset.mem_range, Finset.mem_insert]
                  by_cases hjc : j ∈ consumed
                  · have hne : j ≠ i := fun h => hic (h ▸ hjc)
                    simp [hjc, hne]
                  · simp only [hjc, or_false, not_false_iff, and_true]
                    omega
              by_cases hlarge : chunk.end_line - chunk.start_line + 1 > cfg.MAX_CHUNK_SIZE
              · simp only [opt_loop, hget, hic, if_false, hsmall, hlarge, if_true]
                exact hcommon _
              · simp only [opt_loop, hget, hic, if_false, hsmall, hlarge, if_true]
                exact hcommon _

/-- C1: over any per-file chunk list, the optimizer's output accounts for
every input chunk index exactly once — the provenance sets of the emitted
chunks are pairwise disjoint and their union is `{0, …, n-1}`; in
particular no index feeds two output chunks (an expanded chunk is never
re-used as a later merge partner) and none is dropped. -/
theorem optimizer_accounts_each_index_once (cfg : ChunkingConfig)
    (fs : String → Option (List String)) (chunks : List Chunk) :
    List.Pairwise (fun p q => Disjoint p.2 q.2) (optimize_file_prov cfg fs chunks).1 ∧
    prov_union (optimize_file_prov cfg fs chunks).1 = Finset.range chunks.length := by
  have h := opt_loop_partition cfg fs chunks chunks.length 0 ∅ (by omega)
    (fun j hj => absurd hj (Finset.not_mem_empty j))
    (fun j cj cj1 _ _ hj _ => by omega)
  refine ⟨h.1, ?_⟩
  rw [optimize_file_prov, h.2]
  ext j
  simp
